import Mathlib

/-!
# Verification of the guide-creator segmentation and splice orchestration engine

A shallow embedding, in Lean 4, of the core logic of `src/main.js`:
chapter end-time resolution, output naming and versioning, the
pause, resume and stop control loop, the filter-graph time computations
of `processSingleChapter`, and the result verifier.  Times are modelled
as exact rationals, filesystem contents as lists of path strings, and
the sequential processing loop as a recursion over a schedule of
per-attempt outcomes supplied by the environment.
-/

namespace GuideCreator

/-- A chapter as submitted to the `process-videos` handler: the enriched
record built in `analyze-videos` (main.js 301-307) plus the optional
destination sub-path attached from the spreadsheet lookup.  The marker
start time (already through `parseFloat`) is an exact rational here. -/
structure Chapter where
  id : String
  title : String
  start_time : ℚ
  sourceFile : String
  path : Option String
deriving DecidableEq

/-- The semantics of the JavaScript call
`chapters.find((c, j) => j > i && c.sourceFile === f)` (main.js 462):
scan the list in order, keeping a running index `j`, and return the
first element whose index exceeds `i` and whose `sourceFile` equals `f`. -/
def findFrom (i : Nat) (f : String) : Nat → List Chapter → Option Chapter
  | _, [] => none
  | j, c :: rest => if i < j ∧ c.sourceFile = f then some c else findFrom i f (j + 1) rest

/-- `nextChapterInFile` of main.js 462: the first chapter after position `i`
in the full submission list that belongs to the same source file `f`. -/
def nextChapterInFile (chs : List Chapter) (i : Nat) (f : String) : Option Chapter :=
  findFrom i f 0 chs

/-- The end-time computation of main.js 462-463: the start time of the next
chapter of the same source file in the submission list, or the total
container duration `videoDuration` of the source file when none exists. -/
def resolveEndTime (chs : List Chapter) (i : Nat) (videoDuration : ℚ) : ℚ :=
  match chs[i]? with
  | none => videoDuration
  | some c =>
    match nextChapterInFile chs i c.sourceFile with
    | some nc => nc.start_time
    | none => videoDuration

theorem findFrom_none (i : Nat) (f : String) :
    ∀ (l : List Chapter) (j₀ : Nat), findFrom i f j₀ l = none →
      ∀ k c, l[k]? = some c → i < j₀ + k → c.sourceFile ≠ f := by
  intro l
  induction l with
  | nil => intro j₀ _ k c hk; simp at hk
  | cons a rest ih =>
    intro j₀ h k c hk hik
    rw [findFrom] at h
    split at h
    · exact absurd h (by simp)
    · rename_i hcond
      cases k with
      | zero =>
        simp at hk
        subst hk
        intro hf
        exact hcond ⟨by omega, hf⟩
      | succ k' =>
        simp only [List.getElem?_cons_succ] at hk
        exact ih (j₀ + 1) h k' c hk (by omega)

theorem findFrom_some (i : Nat) (f : String) :
    ∀ (l : List Chapter) (j₀ : Nat) (c : Chapter), findFrom i f j₀ l = some c →
      ∃ k, l[k]? = some c ∧ i < j₀ + k ∧ c.sourceFile = f ∧
        ∀ m cm, m < k → l[m]? = some cm → i < j₀ + m → cm.sourceFile ≠ f := by
  intro l
  induction l with
  | nil => intro j₀ c h; rw [findFrom] at h; exact absurd h (by simp)
  | cons a rest ih =>
    intro j₀ c h
    rw [findFrom] at h
    split at h
    · rename_i hcond
      have hac : a = c := by simpa using h
      subst hac
      refine ⟨0, by simp, by omega, hcond.2, ?_⟩
      intro m cm hm
      exact absurd hm (by omega)
    · rename_i hcond
      obtain ⟨k, hk, hik, hcf, hmin⟩ := ih (j₀ + 1) c h
      refine ⟨k + 1, by simpa using hk, by omega, hcf, ?_⟩
      intro m cm hm hcm him
      cases m with
      | zero =>
        simp at hcm
        subst hcm
        intro hf
        exact hcond ⟨by omega, hf⟩
      | succ m' =>
        simp only [List.getElem?_cons_succ] at hcm
        exact hmin m' cm (by omega) hcm (by omega)

theorem findFrom_exists (i : Nat) (f : String) :
    ∀ (l : List Chapter) (j₀ : Nat) (k : Nat) (c : Chapter),
      l[k]? = some c → i < j₀ + k → c.sourceFile = f →
        ∃ c', findFrom i f j₀ l = some c' := by
  intro l
  induction l with
  | nil => intro j₀ k c hk; simp at hk
  | cons a rest ih =>
    intro j₀ k c hk hik hcf
    rw [findFrom]
    split
    · exact ⟨a, rfl⟩
    · rename_i hcond
      cases k with
      | zero =>
        simp at hk
        subst hk
        exact absurd ⟨by omega, hcf⟩ hcond
      | succ k' =>
        simp only [List.getElem?_cons_succ] at hk
        exact ih (j₀ + 1) k' c hk (by omega) hcf

/-- C1.  For every chapter at position `i` in the submitted processing list,
the resolved end time equals the `start_time` of the next chapter at a
position `j > i` whose `sourceFile` equals that of chapter `i`, scanning the
full cross-file submission list in order (least such `j`), and equals the
total container duration `D` of the source file when no such later chapter
exists. -/
theorem endTime_next_same_file (chs : List Chapter) (i : Nat) (c : Chapter) (D : ℚ)
    (hc : chs[i]? = some c) :
    ((∀ j cj, i < j → chs[j]? = some cj → cj.sourceFile ≠ c.sourceFile) →
        resolveEndTime chs i D = D) ∧
    (∀ j cj, i < j → chs[j]? = some cj → cj.sourceFile = c.sourceFile →
      (∀ m cm, i < m → m < j → chs[m]? = some cm → cm.sourceFile ≠ c.sourceFile) →
        resolveEndTime chs i D = cj.start_time) := by
  constructor
  · intro hnone
    cases hfind : nextChapterInFile chs i c.sourceFile with
    | none => simp only [resolveEndTime, hc, hfind]
    | some nc =>
      obtain ⟨k, hk, hik, hcf, _⟩ := findFrom_some i c.sourceFile chs 0 nc hfind
      exact absurd hcf (hnone k nc (by omega) hk)
  · intro j cj hij hj hcf hmin
    cases hfind : nextChapterInFile chs i c.sourceFile with
    | none =>
      exact absurd hcf (findFrom_none i c.sourceFile chs 0 hfind j cj hj (by omega))
    | some nc =>
      obtain ⟨k, hk, hik, hkf, hkmin⟩ := findFrom_some i c.sourceFile chs 0 nc hfind
      have hkj : k = j := by
        rcases Nat.lt_trichotomy k j with h | h | h
        · exact absurd hkf (hmin k nc (by omega) h hk)
        · exact h
        · exact absurd hcf (hkmin j cj h hj (by omega))
      subst hkj
      rw [hk] at hj
      cases hj
      simp only [resolveEndTime, hc, hfind]

/-- Witness for C1 on a concrete three-chapter, two-file submission list:
the middle chapter of file `b` ends at the duration of `b`, and the first
chapter of file `a` ends at the start time of the third chapter. -/
theorem endTime_next_same_file_witness :
    resolveEndTime
        [⟨"c0", "t0", 0, "a", none⟩, ⟨"c1", "t1", 3, "b", none⟩, ⟨"c2", "t2", 5, "a", none⟩]
        0 10 = 5 := by
  exact (endTime_next_same_file
      [⟨"c0", "t0", 0, "a", none⟩, ⟨"c1", "t1", 3, "b", none⟩, ⟨"c2", "t2", 5, "a", none⟩]
      0 ⟨"c0", "t0", 0, "a", none⟩ 10 rfl).2 2 ⟨"c2", "t2", 5, "a", none⟩ (by omega) rfl rfl
      (fun m cm h1 h2 hm => by interval_cases m; simp at hm; subst hm; decide)

/-- JavaScript `Math.round`: round to the nearest integer, halves toward
positive infinity. -/
def jsRound (q : ℚ) : ℤ := Rat.floor (q + 1 / 2)

/-- `frameDuration = 1 / frameRate` (main.js 562). -/
def frameDuration (frameRate : ℚ) : ℚ := 1 / frameRate

/-- `tenFramesDuration = 10 * frameDuration` (main.js 563): the fixed
ten-frame handle length. -/
def tenFramesDuration (frameRate : ℚ) : ℚ := 10 * frameDuration frameRate

theorem tenFramesDuration_eq (r : ℚ) : tenFramesDuration r = 10 / r := by
  rw [tenFramesDuration, frameDuration, mul_one_div]

/-- C6.  For every exact rational frame rate `r`, the computed handle
duration equals `10 / r` exactly: `tenFramesDuration r = 10 * frameDuration r`
with `frameDuration r = 1 / r`, a fixed ten-frame constant not derived from
the content (it depends on nothing but `r`). -/
theorem handle_duration_ten_over_rate (r : ℚ) :
    tenFramesDuration r = 10 / r ∧ tenFramesDuration r = 10 * frameDuration r :=
  ⟨tenFramesDuration_eq r, rfl⟩

/-- One ffprobe stream record, with the fields `processSingleChapter` and
the result verifier read.  `r_frame_rate` is the parsed exact rational
(`none` when the field is absent); `sample_rate` and `channel_layout` are
the raw strings (`none` when absent). -/
structure Stream where
  codec_type : String
  r_frame_rate : Option ℚ
  sample_rate : Option String
  channel_layout : Option String
deriving DecidableEq

/-- The ffprobe format record: the container duration, `none` when absent. -/
structure Format where
  duration : Option ℚ
deriving DecidableEq

/-- The parsed output of `getVideoInfo` (main.js 694-710). -/
structure VideoInfo where
  format : Format
  streams : List Stream
deriving DecidableEq

/-- JavaScript `x || d` for an optional string field: the default replaces
both a missing field and the empty (falsy) string. -/
def jsOrDefault (x : Option String) (d : String) : String :=
  match x with
  | some s => if s = "" then d else s
  | none => d

/-- A trim range as emitted into the filter graph. -/
structure TrimRange where
  start : ℚ
  stop : ℚ
deriving DecidableEq

/-- An audio segment of the splice graph: synthesized silence
(`anullsrc` + `atrim=duration=`) or a real trim (`atrim=start=:end=`). -/
inductive AudioSeg
  | silence (duration : ℚ) (sampleRate : String) (channelLayout : String)
  | trim (range : TrimRange)
deriving DecidableEq

/-- The three audio segments concatenated by the filter graph
(main.js 593-617). -/
structure AudioPlan where
  pre : AudioSeg
  main : TrimRange
  suf : AudioSeg
deriving DecidableEq

/-- The time-valued payload of one chapter transcode as computed by
`processSingleChapter` (main.js 546-646): the still-frame seek times
(after the `Math.max(0, time)` clamp of `createStillFrame`, main.js 683),
the main video trim, the emitted single-chapter metadata in microseconds,
and the audio plan when an audio stream exists. -/
structure ChapterPlan where
  prefixSeekTime : ℚ
  suffixSeekTime : ℚ
  videoTrim : TrimRange
  metadataStart : ℤ
  metadataEnd : ℤ
  audio : Option AudioPlan
deriving DecidableEq

/-- The time computations of `processSingleChapter` (main.js 559-621),
given the resolved `startTime` and `endTime`, the exact rational frame
rate of the source video stream, the container duration, and the audio
stream when present. -/
def buildChapterPlan (startTime endTime frameRate videoDuration : ℚ)
    (audioStream : Option Stream) : ChapterPlan :=
  let frameDur := frameDuration frameRate
  let tenFrames := tenFramesDuration frameRate
  let suffixTime := max startTime (endTime - frameDur)
  let chapterDuration := endTime - startTime
  let newChapterStartTime := tenFrames
  let newChapterEndTime := newChapterStartTime + chapterDuration
  let videoTrimEndTime := max startTime (endTime - frameDur)
  { prefixSeekTime := max 0 startTime
    suffixSeekTime := max 0 suffixTime
    videoTrim := ⟨startTime, videoTrimEndTime⟩
    metadataStart := jsRound (newChapterStartTime * 1000000)
    metadataEnd := jsRound (newChapterEndTime * 1000000)
    audio := audioStream.map fun a =>
      let sampleRate := jsOrDefault a.sample_rate "48000"
      let channelLayout := jsOrDefault a.channel_layout "stereo"
      let isFirstChapterInFile : Bool := decide (startTime < tenFrames)
      let pre :=
        if isFirstChapterInFile then
          AudioSeg.silence tenFrames sampleRate channelLayout
        else
          AudioSeg.trim ⟨max 0 (startTime - tenFrames), startTime⟩
      let isLastChapterInFile : Bool := decide (endTime > videoDuration - frameDur)
      let suf :=
        if isLastChapterInFile then
          AudioSeg.silence tenFrames sampleRate channelLayout
        else
          AudioSeg.trim ⟨endTime, min videoDuration (endTime + tenFrames)⟩
      { pre := pre, main := ⟨startTime, endTime⟩, suf := suf } }

/-- C7 counterexample.  The claim that a negative `startTime` is clamped to
zero before any extraction, still-frame capture and trim alike, and that
every emitted trim satisfies `start ≤ end`, is false on the code: with
`startTime = -1` the main video trim starts at `-1` (only the still-frame
seek is clamped to 0), and with a reordered list giving `endTime = 3 <
startTime = 5` the main audio trim is the inverted range `[5, 3)`. -/
theorem clamp_counterexample :
    (buildChapterPlan (-1) 2 30 10 none).videoTrim.start < 0 ∧
    (buildChapterPlan (-1) 2 30 10 none).prefixSeekTime = 0 ∧
    ∃ ap, (buildChapterPlan 5 3 30 10 (some ⟨"audio", none, none, none⟩)).audio = some ap ∧
      ¬ ap.main.start ≤ ap.main.stop := by
  refine ⟨by norm_num [buildChapterPlan], by norm_num [buildChapterPlan], ?_⟩
  refine ⟨_, rfl, ?_⟩
  norm_num [buildChapterPlan]

/-- C7 amended.  A negative time is clamped to zero only for the two
still-frame captures (`seekTime = Math.max(0, time)`); the main video trim
uses the raw `startTime`, and its end is clamped to
`max(startTime, endTime - frameDuration)`, so the video trim never inverts
(`start ≤ end`) and both still-frame seek times are nonnegative; the audio
trims receive no such clamps. -/
theorem clamp_amended (st et r vd : ℚ) (a : Option Stream) :
    (buildChapterPlan st et r vd a).prefixSeekTime = max 0 st ∧
    (buildChapterPlan st et r vd a).suffixSeekTime = max 0 (max st (et - 1 / r)) ∧
    (buildChapterPlan st et r vd a).videoTrim = ⟨st, max st (et - 1 / r)⟩ ∧
    (buildChapterPlan st et r vd a).videoTrim.start ≤
      (buildChapterPlan st et r vd a).videoTrim.stop ∧
    0 ≤ (buildChapterPlan st et r vd a).prefixSeekTime ∧
    0 ≤ (buildChapterPlan st et r vd a).suffixSeekTime := by
  refine ⟨rfl, rfl, rfl, ?_, le_max_left 0 st, le_max_left 0 _⟩
  exact le_max_left st (et - frameDuration r)

/-- C8.  For every chapter of a source file with an audio stream: when the
chapter is the first occurrence in its source file (`startTime` below the
handle duration `10 / r`) the audio prefix is synthesized silence of length
`10 / r` at the sample rate and channel layout of the stream, otherwise it
is the real trim from `max(0, startTime - 10 / r)` to `startTime`; and in
the concrete two-chapter 30 fps, 10 s scenario with markers at 0 and 5 the
resolved ranges are `[0, 5)` and `[5, 10)`, chapter 1 gets silence and
chapter 2 gets the real trim from `14 / 3` (which rounds to `4.667` at
three decimals) to `5`. -/
theorem audio_prefix_branch (st et r vd : ℚ) (a : Stream) :
    (∃ ap, (buildChapterPlan st et r vd (some a)).audio = some ap ∧
      (st < 10 / r →
        ap.pre = AudioSeg.silence (10 / r) (jsOrDefault a.sample_rate "48000")
          (jsOrDefault a.channel_layout "stereo")) ∧
      (¬ st < 10 / r →
        ap.pre = AudioSeg.trim ⟨max 0 (st - 10 / r), st⟩)) ∧
    (resolveEndTime
        [⟨"c0", "m1", 0, "f.mov", none⟩, ⟨"c1", "m2", 5, "f.mov", none⟩] 0 10 = 5 ∧
     resolveEndTime
        [⟨"c0", "m1", 0, "f.mov", none⟩, ⟨"c1", "m2", 5, "f.mov", none⟩] 1 10 = 10 ∧
     (∃ ap, (buildChapterPlan 0 5 30 10 (some ⟨"audio", none, some "48000", some "stereo"⟩)).audio
          = some ap ∧ ap.pre = AudioSeg.silence (1 / 3) "48000" "stereo") ∧
     (∃ ap, (buildChapterPlan 5 10 30 10 (some ⟨"audio", none, some "48000", some "stereo"⟩)).audio
          = some ap ∧ ap.pre = AudioSeg.trim ⟨14 / 3, 5⟩ ∧
        jsRound (14 / 3 * 1000) = 4667)) := by
  constructor
  · refine ⟨_, rfl, ?_, ?_⟩
    · intro h
      have h10 : tenFramesDuration r = 10 / r := tenFramesDuration_eq r
      simp [buildChapterPlan, h10, h]
    · intro h
      have h10 : tenFramesDuration r = 10 / r := tenFramesDuration_eq r
      simp [buildChapterPlan, h10, h]
  · refine ⟨by decide, by decide, ⟨_, rfl, ?_⟩,
      ⟨_, rfl, ?_, by rw [jsRound, Rat.floor_def']; norm_num⟩⟩
    · norm_num [buildChapterPlan, tenFramesDuration, frameDuration, jsOrDefault]
    · norm_num [buildChapterPlan, tenFramesDuration, frameDuration, jsOrDefault]

theorem charOfNat_toNat {n : Nat} (h : n < 55296) : (Char.ofNat n).toNat = n := by
  rw [Char.ofNat, dif_pos (Or.inl h)]
  rfl

/-- An ASCII capital letter. -/
def isAsciiUpper (c : Char) : Bool := decide (65 ≤ c.toNat ∧ c.toNat ≤ 90)

/-- An ASCII small letter. -/
def isAsciiLower (c : Char) : Bool := decide (97 ≤ c.toNat ∧ c.toNat ≤ 122)

/-- The ASCII action of the JavaScript `String.prototype.toLowerCase` on one
character. -/
def jsCharToLower (c : Char) : Char :=
  if 65 ≤ c.toNat ∧ c.toNat ≤ 90 then Char.ofNat (c.toNat + 32) else c

/-- The ASCII action of the JavaScript `String.prototype.toUpperCase` on one
character. -/
def jsCharToUpper (c : Char) : Char :=
  if 97 ≤ c.toNat ∧ c.toNat ≤ 122 then Char.ofNat (c.toNat - 32) else c

/-- `s.toLowerCase()` restricted to its ASCII action. -/
def jsToLowerCase (s : String) : String := ⟨s.data.map jsCharToLower⟩

/-- `s.toUpperCase()` restricted to its ASCII action. -/
def jsToUpperCase (s : String) : String := ⟨s.data.map jsCharToUpper⟩

theorem isAsciiUpper_jsCharToLower (c : Char) : isAsciiUpper (jsCharToLower c) = false := by
  rw [jsCharToLower]
  split
  · rename_i h
    have ht : c.toNat + 32 < 55296 := by omega
    simp only [isAsciiUpper, charOfNat_toNat ht, decide_eq_false_iff_not]
    omega
  · rename_i h
    simp only [isAsciiUpper, decide_eq_false_iff_not]
    omega

theorem isAsciiLower_jsCharToUpper (c : Char) : isAsciiLower (jsCharToUpper c) = false := by
  rw [jsCharToUpper]
  split
  · rename_i h
    have ht : c.toNat - 32 < 55296 := by omega
    simp only [isAsciiLower, charOfNat_toNat ht, decide_eq_false_iff_not]
    omega
  · rename_i h
    simp only [isAsciiLower, decide_eq_false_iff_not]
    omega

/-- The title sanitizer of main.js 437: every character of the class
(space, slash, backslash, question mark, percent, star, colon, pipe,
double quote, angle brackets) becomes an underscore. -/
def sanitizeTitle (t : String) : String :=
  ⟨t.data.map fun c =>
    if c ∈ [' ', '/', '\\', '?', '%', '*', ':', '|', '"', '<', '>'] then '_' else c⟩

/-- The destination sub-path sanitizer of main.js 419: the characters
colon, star, question mark, double quote, angle brackets and pipe are
removed. -/
def sanitizePathChars (p : String) : String :=
  ⟨p.data.filter fun c => c ∉ [':', '*', '?', '"', '<', '>', '|']⟩

/-- `path.join`, modelled as separator concatenation. -/
def pathJoin (a b : String) : String := a ++ "\\" ++ b

/-- `path.basename(p, path.extname(p))` (main.js 423): the component after
the last path separator, with a final dot-extension removed. -/
def basenameNoExt (p : String) : String :=
  let base := ((p.split fun c => c = '/' ∨ c = '\\').getLastD p)
  match base.revPosOf '.' with
  | some pos => base.extract 0 pos
  | none => base

/-- `String(version).padStart(3, '0')` (main.js 440). -/
def pad3 (s : String) : String :=
  if s.length ≥ 3 then s else ⟨List.replicate (3 - s.length) '0' ++ s.data⟩

/-- The `v{NNN}` version tag of main.js 440. -/
def versionTag (v : Nat) : String := "v" ++ pad3 (toString v)

/-- The final clip name of main.js 441: sanitized base name, dash, version
tag, lowercased. -/
def finalClipName (baseClipName : String) (v : Nat) : String :=
  jsToLowerCase (baseClipName ++ "-" ++ versionTag v)

/-- The prospective output path probed by the version scan of
main.js 442. -/
def prospectivePath (dir baseClipName : String) (v : Nat) : String :=
  pathJoin dir (finalClipName baseClipName v ++ ".mp4")

/-- The version scan loop of main.js 438-447, over a snapshot `files` of
the existing file paths.  The source loop is `while (true)`; the model
carries fuel and returns `none` when the fuel runs out, which on a finite
filesystem a large enough fuel never does. -/
def resolveVersionAux (files : List String) (dir baseClipName : String) :
    Nat → Nat → Option Nat
  | 0, _ => none
  | fuel + 1, v =>
    if files.contains (prospectivePath dir baseClipName v) then
      resolveVersionAux files dir baseClipName fuel (v + 1)
    else
      some v

/-- The version resolver: scan `v001, v002, ...` starting at 1. -/
def resolveVersion (files : List String) (dir baseClipName : String) (fuel : Nat) :
    Option Nat :=
  resolveVersionAux files dir baseClipName fuel 1

theorem resolveVersionAux_spec (files : List String) (dir base : String) :
    ∀ (fuel v₀ v : Nat), resolveVersionAux files dir base fuel v₀ = some v →
      v₀ ≤ v ∧ files.contains (prospectivePath dir base v) = false ∧
        ∀ w, v₀ ≤ w → w < v → files.contains (prospectivePath dir base w) = true := by
  intro fuel
  induction fuel with
  | zero => intro v₀ v h; exact absurd h (by simp [resolveVersionAux])
  | succ n ih =>
    intro v₀ v h
    rw [resolveVersionAux] at h
    split at h
    · rename_i hex
      obtain ⟨h1, h2, h3⟩ := ih (v₀ + 1) v h
      refine ⟨by omega, h2, ?_⟩
      intro w hw1 hw2
      rcases Nat.eq_or_lt_of_le hw1 with heq | hlt
      · subst heq; exact hex
      · exact h3 w (by omega) hw2
    · rename_i hex
      cases h
      exact ⟨le_refl _, by simpa using hex, fun w hw1 hw2 => absurd hw1 (by omega)⟩

/-- C2.  Whenever the version scan terminates, it returns the lowest
`N ≥ 1` such that the file `{base}-v{NNN}.mp4` does not exist, scanning
`v001, v002, ...` in order, and never selects the name of an existing
file; resolving twice against the same directory snapshot yields the same
version; with only `v001` present the result is version 2, and with `v001`
and `v002` present it is version 3. -/
theorem version_scan_lowest_unused :
    (∀ (files : List String) (dir base : String) (fuel v : Nat),
      resolveVersion files dir base fuel = some v →
        1 ≤ v ∧ files.contains (prospectivePath dir base v) = false ∧
          ∀ w, 1 ≤ w → w < v → files.contains (prospectivePath dir base w) = true) ∧
    (∀ (files : List String) (dir base : String) (fuel v : Nat),
      resolveVersion files dir base fuel = some v →
        resolveVersion files dir base fuel = some v) ∧
    resolveVersion [prospectivePath "S:" "Name" 1] "S:" "Name" 4 = some 2 ∧
    resolveVersion [prospectivePath "S:" "Name" 1, prospectivePath "S:" "Name" 2]
        "S:" "Name" 4 = some 3 := by
  refine ⟨?_, fun _ _ _ _ _ h => h, by decide, by decide⟩
  intro files dir base fuel v h
  exact resolveVersionAux_spec files dir base fuel 1 v h

/-- Witness for C2: the quantified part applied to the one-file snapshot,
where the scan returns version 2. -/
theorem version_scan_lowest_unused_witness :
    1 ≤ 2 ∧
      List.contains [prospectivePath "S:" "Name" 1] (prospectivePath "S:" "Name" 2) = false ∧
      ∀ w, 1 ≤ w → w < 2 →
        List.contains [prospectivePath "S:" "Name" 1] (prospectivePath "S:" "Name" w) = true :=
  version_scan_lowest_unused.1 [prospectivePath "S:" "Name" 1] "S:" "Name" 4 2 (by decide)

/-- The per-chapter destination directory resolution of main.js 417-425:
a present, non-placeholder, non-blank `path` is sanitized and joined under
the output root, otherwise the chapter falls back to the `_UNMATCHED`
subdirectory keyed by the source file base name; either way the result is
uppercased. -/
def chapterOutputDir (baseDir : String) (c : Chapter) : String :=
  match c.path with
  | some p =>
    if p ≠ "" ∧ p ≠ "UNKNOWN_PATH" ∧ p.trim ≠ "" then
      jsToUpperCase (pathJoin baseDir (sanitizePathChars p))
    else
      jsToUpperCase (pathJoin (pathJoin baseDir "_UNMATCHED") (basenameNoExt c.sourceFile))
  | none =>
    jsToUpperCase (pathJoin (pathJoin baseDir "_UNMATCHED") (basenameNoExt c.sourceFile))

/-- C10.  For every input title, version and chapter, the emitted final
clip name contains no ASCII capital letter (it is lowercased as a whole)
and the resolved destination directory, from the `path` field or the
`_UNMATCHED` fallback alike, contains no ASCII small letter (it is
uppercased as a whole), regardless of the original casing. -/
theorem casing_normalization (title : String) (v : Nat) (baseDir : String) (c : Chapter) :
    (finalClipName (sanitizeTitle title) v).data.all
        (fun ch => !(isAsciiUpper ch)) = true ∧
    (chapterOutputDir baseDir c).data.all (fun ch => !(isAsciiLower ch)) = true := by
  constructor
  · rw [finalClipName, jsToLowerCase]
    simp only [List.all_map, List.all_eq_true, Function.comp_apply]
    intro ch _
    simp [isAsciiUpper_jsCharToLower]
  · have key : ∀ s : String, (jsToUpperCase s).data.all (fun ch => !(isAsciiLower ch)) = true := by
      intro s
      rw [jsToUpperCase]
      simp only [List.all_map, List.all_eq_true, Function.comp_apply]
      intro ch _
      simp [isAsciiLower_jsCharToUpper]
    cases hcp : c.path with
    | none => simp only [chapterOutputDir, hcp]; exact key _
    | some p =>
      simp only [chapterOutputDir, hcp]
      split
      · exact key _
      · exact key _

/-- The mutable control state of a processing run (main.js 20-24). -/
structure ProcState where
  isProcessing : Bool
  isPaused : Bool
  shouldStop : Bool
deriving DecidableEq

/-- The entry of the `process-videos` handler (main.js 364-397), given
that the ffmpeg and ffprobe binaries exist: the handler reads no prior
control state — in particular it never consults `isProcessing` — and
unconditionally resets the flags and proceeds into the pre-cache and the
processing loop.  The boolean component records that a new processing
loop begins. -/
def processVideosEntry (_s : ProcState) : ProcState × Bool :=
  ({ isProcessing := true, isPaused := false, shouldStop := false }, true)

/-- C5 (refuted; the code bug evaluated at the failing input).  A start
request received while a run is already processing and currently paused is
not rejected: the handler starts a new processing loop and clobbers the
control flags of the in-progress run, clearing its `isPaused`. -/
theorem start_while_running_not_rejected :
    (processVideosEntry ⟨true, true, false⟩).2 = true ∧
    (processVideosEntry ⟨true, true, false⟩).1.isPaused = false ∧
    (processVideosEntry ⟨true, true, false⟩).1.isPaused ≠
      (⟨true, true, false⟩ : ProcState).isPaused := by
  exact ⟨rfl, rfl, by decide⟩

/-- Witness for C8: for the first chapter of the scenario file, whose
start time 0 is below the handle duration of a third of a second, the
theorem yields the synthesized-silence prefix. -/
theorem audio_prefix_branch_witness :
    ∃ ap, (buildChapterPlan 0 5 30 10
        (some ⟨"audio", none, some "48000", some "stereo"⟩)).audio = some ap ∧
      ap.pre = AudioSeg.silence (10 / 30) (jsOrDefault (some "48000") "48000")
        (jsOrDefault (some "stereo") "stereo") := by
  obtain ⟨⟨ap, hap, hsil, -⟩, -⟩ :=
    audio_prefix_branch 0 5 30 10 ⟨"audio", none, some "48000", some "stereo"⟩
  exact ⟨ap, hap, hsil (by norm_num)⟩

/-- The result of the result verifier. -/
structure VerifyResult where
  durationFrames : ℤ
  durationSeconds : ℤ
deriving DecidableEq

/-- The result verification of main.js 651-664: re-probe the produced
file; when the format duration, the video stream or its frame rate is
missing, report zero frames and zero seconds; otherwise report the
rounded frame count and the rounded seconds. -/
def verifyResult (info : VideoInfo) : VerifyResult :=
  match info.streams.find? fun s => s.codec_type == "video" with
  | none => ⟨0, 0⟩
  | some vs =>
    match info.format.duration, vs.r_frame_rate with
    | some d, some r => ⟨jsRound (d * r), jsRound d⟩
    | some _, none => ⟨0, 0⟩
    | none, _ => ⟨0, 0⟩

/-- A per-chapter status as sent over the `chapter-update` channel
(durations are attached to `Done` only). -/
inductive Status
  | processing
  | done (durationSeconds durationFrames : ℤ)
  | error
  | paused
  | stopped
deriving DecidableEq

/-- One element of the observable trace of a run: either the invocation
of `processSingleChapter` for the chapter at a submission index, with the
start and end times passed to it, or a `chapter-update` status event.
The submission index is carried for specification purposes; the emitted
event itself carries the chapter id. -/
inductive Ev
  | attempt (idx : Nat) (chapterId : String) (startTime endTime : ℚ)
  | status (idx : Nat) (chapterId : String) (st : Status)
deriving DecidableEq

/-- The submission index an element of the trace belongs to. -/
def Ev.evIdx : Ev → Nat
  | .attempt i _ _ _ => i
  | .status i _ _ => i

/-- What the environment did to one `processSingleChapter` attempt:
it ran to completion (carrying the re-probe of the produced file), it was
interrupted by pause and later resumed, interrupted by pause and then
stopped while paused, interrupted by stop, or it failed. -/
inductive Outcome
  | success (newClipInfo : VideoInfo)
  | pausedThenResume
  | pausedThenStop
  | stopped
  | error
deriving DecidableEq

/-- How a run ended: the `processing-complete` signal, the distinct
`processing-stopped` signal, or (a model artifact) the outcome schedule
was exhausted with chapters still pending. -/
inductive RunEnd
  | complete
  | stoppedEnd
  | starved
deriving DecidableEq

/-- The sequential processing loop of the `process-videos` handler
(main.js 399-509), abstracted over a schedule of per-attempt outcomes.
Each iteration at index `i` emits the `Processing` status, invokes
`processSingleChapter` with the times of main.js 460-463, and then follows
the catch branches of main.js 478-494: on success `Done` with the verified
durations; on the `paused` rejection a `Paused` status, the index is
decremented so the same chapter is retried after the pause wait (main.js
482), unless stop arrives during the wait, in which case the loop breaks
with no further chapter event (main.js 405-412); on the `stopped`
rejection a single `Stopped` status and the loop breaks (main.js 486-489);
on any other failure an `Error` status and the loop continues.  The run
ends with the `processing-stopped` signal exactly when `shouldStop` was
set (main.js 497-503). -/
def runLoop (chs : List Chapter) (dur : String → ℚ) :
    List Outcome → Nat → List Ev × RunEnd
  | [], i => if i < chs.length then ([], .starved) else ([], .complete)
  | o :: rest, i =>
    match chs[i]? with
    | none => ([], .complete)
    | some c =>
      let st := c.start_time
      let et := resolveEndTime chs i (dur c.sourceFile)
      match o with
      | .success info =>
        let r := verifyResult info
        let k := runLoop chs dur rest (i + 1)
        (.status i c.id .processing :: .attempt i c.id st et ::
          .status i c.id (.done r.durationSeconds r.durationFrames) :: k.1, k.2)
      | .error =>
        let k := runLoop chs dur rest (i + 1)
        (.status i c.id .processing :: .attempt i c.id st et ::
          .status i c.id .error :: k.1, k.2)
      | .pausedThenResume =>
        let k := runLoop chs dur rest i
        (.status i c.id .processing :: .attempt i c.id st et ::
          .status i c.id .paused :: k.1, k.2)
      | .pausedThenStop =>
        ([.status i c.id .processing, .attempt i c.id st et, .status i c.id .paused],
          .stoppedEnd)
      | .stopped =>
        ([.status i c.id .processing, .attempt i c.id st et, .status i c.id .stopped],
          .stoppedEnd)

/-- C9.  The verifier returns the rounded frame count
`round(durationSecondsFloat * frameRate)` and the rounded seconds when the
re-probe has a video stream with a frame rate and a format duration; with
any of those missing it returns zero frames and zero seconds, and the
chapter nevertheless completes with a `Done` status rather than an
error. -/
theorem verifier_rounding_and_degrade :
    (∀ (info : VideoInfo) (vs : Stream) (d r : ℚ),
      (info.streams.find? fun s => s.codec_type == "video") = some vs →
      info.format.duration = some d → vs.r_frame_rate = some r →
        verifyResult info = ⟨jsRound (d * r), jsRound d⟩) ∧
    (∀ info : VideoInfo,
      (info.streams.find? fun s => s.codec_type == "video") = none →
        verifyResult info = ⟨0, 0⟩) ∧
    (∀ (info : VideoInfo) (vs : Stream),
      (info.streams.find? fun s => s.codec_type == "video") = some vs →
      (info.format.duration = none ∨ vs.r_frame_rate = none) →
        verifyResult info = ⟨0, 0⟩) ∧
    (∀ (chs : List Chapter) (dur : String → ℚ) (i : Nat) (c : Chapter)
        (info : VideoInfo) (rest : List Outcome),
      chs[i]? = some c → verifyResult info = ⟨0, 0⟩ →
        (runLoop chs dur (.success info :: rest) i).1 =
          .status i c.id .processing ::
          .attempt i c.id c.start_time (resolveEndTime chs i (dur c.sourceFile)) ::
          .status i c.id (.done 0 0) :: (runLoop chs dur rest (i + 1)).1) := by
  refine ⟨?_, ?_, ?_, ?_⟩
  · intro info vs d r hfind hd hr
    simp only [verifyResult, hfind, hd, hr]
  · intro info hfind
    simp only [verifyResult, hfind]
  · intro info vs hfind hmiss
    rcases hmiss with h | h
    · simp only [verifyResult, hfind, h]
    · simp only [verifyResult, hfind, h]
      cases info.format.duration <;> rfl
  · intro chs dur i c info rest hc hv
    simp only [runLoop, hc, hv]

/-- Witness for C9: a complete re-probe of a 2.5 s, 30 fps clip reports 75
frames and 3 (JavaScript rounding) seconds. -/
theorem verifier_rounding_and_degrade_witness :
    verifyResult ⟨⟨some (5 / 2)⟩, [⟨"video", some 30, none, none⟩]⟩ =
      ⟨jsRound (5 / 2 * 30), jsRound (5 / 2)⟩ ∧
    jsRound ((5 : ℚ) / 2 * 30) = 75 ∧ jsRound ((5 : ℚ) / 2) = 3 := by
  refine ⟨verifier_rounding_and_degrade.1
      ⟨⟨some (5 / 2)⟩, [⟨"video", some 30, none, none⟩]⟩
      ⟨"video", some 30, none, none⟩ (5 / 2) 30 (by decide) rfl rfl, ?_, ?_⟩
  · rw [jsRound, Rat.floor_def']
    norm_num
  · rw [jsRound, Rat.floor_def']
    norm_num

/-- The `processSingleChapter` invocations of a trace, as
(index, chapter id, start time, end time) tuples in order. -/
def attemptsOf (tr : List Ev) : List (Nat × String × ℚ × ℚ) :=
  tr.filterMap fun e =>
    match e with
    | .attempt i cid st et => some (i, cid, st, et)
    | .status _ _ _ => none

/-- The submission indices whose chapter received a `Done` status, in
emission order. -/
def doneIdxs (tr : List Ev) : List Nat :=
  tr.filterMap fun e =>
    match e with
    | .status i _ (.done _ _) => some i
    | _ => none

/-- Whether a trace element is a `Stopped` status event. -/
def isStoppedStatus : Ev → Bool
  | .status _ _ .stopped => true
  | _ => false

theorem runLoop_idx_ge (chs : List Chapter) (dur : String → ℚ) :
    ∀ (sched : List Outcome) (i : Nat) (e : Ev),
      e ∈ (runLoop chs dur sched i).1 → i ≤ e.evIdx := by
  intro sched
  induction sched with
  | nil =>
    intro i e he
    rw [runLoop] at he
    split at he <;> simp at he
  | cons o rest ih =>
    intro i e he
    cases hc : chs[i]? with
    | none => simp only [runLoop, hc] at he; simp at he
    | some c =>
      cases o with
      | success info =>
        simp only [runLoop, hc, List.mem_cons] at he
        rcases he with h | h | h | h
        · subst h; exact le_refl _
        · subst h; exact le_refl _
        · subst h; exact le_refl _
        · exact le_trans (by omega) (ih (i + 1) e h)
      | error =>
        simp only [runLoop, hc, List.mem_cons] at he
        rcases he with h | h | h | h
        · subst h; exact le_refl _
        · subst h; exact le_refl _
        · subst h; exact le_refl _
        · exact le_trans (by omega) (ih (i + 1) e h)
      | pausedThenResume =>
        simp only [runLoop, hc, List.mem_cons] at he
        rcases he with h | h | h | h
        · subst h; exact le_refl _
        · subst h; exact le_refl _
        · subst h; exact le_refl _
        · exact ih i e h
      | pausedThenStop =>
        simp only [runLoop, hc, List.mem_cons] at he
        rcases he with h | h | h | h
        · subst h; exact le_refl _
        · subst h; exact le_refl _
        · subst h; exact le_refl _
        · simp at h
      | stopped =>
        simp only [runLoop, hc, List.mem_cons] at he
        rcases he with h | h | h | h
        · subst h; exact le_refl _
        · subst h; exact le_refl _
        · subst h; exact le_refl _
        · simp at h

theorem runLoop_attempt_shape (chs : List Chapter) (dur : String → ℚ) :
    ∀ (sched : List Outcome) (i : Nat) (a : Nat × String × ℚ × ℚ),
      a ∈ attemptsOf (runLoop chs dur sched i).1 →
        ∃ c, chs[a.1]? = some c ∧ a.2.1 = c.id ∧ a.2.2.1 = c.start_time ∧
          a.2.2.2 = resolveEndTime chs a.1 (dur c.sourceFile) := by
  intro sched
  induction sched with
  | nil =>
    intro i a ha
    rw [runLoop] at ha
    split at ha <;> simp [attemptsOf] at ha
  | cons o rest ih =>
    intro i a ha
    cases hc : chs[i]? with
    | none => simp only [runLoop, hc] at ha; simp [attemptsOf] at ha
    | some c =>
      cases o with
      | success info =>
        simp only [runLoop, hc, attemptsOf, List.filterMap_cons, List.mem_cons] at ha
        rcases ha with h | h
        · subst h; exact ⟨c, hc, rfl, rfl, rfl⟩
        · exact ih (i + 1) a h
      | error =>
        simp only [runLoop, hc, attemptsOf, List.filterMap_cons, List.mem_cons] at ha
        rcases ha with h | h
        · subst h; exact ⟨c, hc, rfl, rfl, rfl⟩
        · exact ih (i + 1) a h
      | pausedThenResume =>
        simp only [runLoop, hc, attemptsOf, List.filterMap_cons, List.mem_cons] at ha
        rcases ha with h | h
        · subst h; exact ⟨c, hc, rfl, rfl, rfl⟩
        · exact ih i a h
      | pausedThenStop =>
        simp only [runLoop, hc, attemptsOf, List.filterMap_cons, List.mem_cons] at ha
        simp at ha
        subst ha
        exact ⟨c, hc, rfl, rfl, rfl⟩
      | stopped =>
        simp only [runLoop, hc, attemptsOf, List.filterMap_cons, List.mem_cons] at ha
        simp at ha
        subst ha
        exact ⟨c, hc, rfl, rfl, rfl⟩

theorem runLoop_attempts_head (chs : List Chapter) (dur : String → ℚ) :
    ∀ (sched : List Outcome) (i : Nat) (a : Nat × String × ℚ × ℚ),
      (attemptsOf (runLoop chs dur sched i).1).head? = some a → a.1 = i := by
  intro sched i a ha
  cases sched with
  | nil =>
    rw [runLoop] at ha
    split at ha <;> simp [attemptsOf] at ha
  | cons o rest =>
    cases hc : chs[i]? with
    | none => simp only [runLoop, hc] at ha; simp [attemptsOf] at ha
    | some c =>
      cases o <;>
        · simp only [runLoop, hc, attemptsOf, List.filterMap_cons] at ha
          simp at ha
          subst ha
          rfl

theorem runLoop_attempts_chain (chs : List Chapter) (dur : String → ℚ) :
    ∀ (sched : List Outcome) (i : Nat),
      List.Chain' (fun a b => b.1 = a.1 ∨ b.1 = a.1 + 1)
        (attemptsOf (runLoop chs dur sched i).1) := by
  intro sched
  induction sched with
  | nil =>
    intro i
    rw [runLoop]
    split <;> simp [attemptsOf]
  | cons o rest ih =>
    intro i
    cases hc : chs[i]? with
    | none => simp only [runLoop, hc]; simp [attemptsOf]
    | some c =>
      cases o with
      | success info =>
        simp only [runLoop, hc, attemptsOf, List.filterMap_cons]
        refine List.chain'_cons'.mpr ⟨?_, ih (i + 1)⟩
        intro b hb
        exact Or.inr (runLoop_attempts_head chs dur rest (i + 1) b hb)
      | error =>
        simp only [runLoop, hc, attemptsOf, List.filterMap_cons]
        refine List.chain'_cons'.mpr ⟨?_, ih (i + 1)⟩
        intro b hb
        exact Or.inr (runLoop_attempts_head chs dur rest (i + 1) b hb)
      | pausedThenResume =>
        simp only [runLoop, hc, attemptsOf, List.filterMap_cons]
        refine List.chain'_cons'.mpr ⟨?_, ih i⟩
        intro b hb
        exact Or.inl (runLoop_attempts_head chs dur rest i b hb)
      | pausedThenStop =>
        simp only [runLoop, hc, attemptsOf, List.filterMap_cons]
        simp
      | stopped =>
        simp only [runLoop, hc, attemptsOf, List.filterMap_cons]
        simp

theorem runLoop_done_ge (chs : List Chapter) (dur : String → ℚ) :
    ∀ (sched : List Outcome) (i : Nat) (j : Nat),
      j ∈ doneIdxs (runLoop chs dur sched i).1 → i ≤ j := by
  intro sched
  induction sched with
  | nil =>
    intro i j hj
    rw [runLoop] at hj
    split at hj <;> simp [doneIdxs] at hj
  | cons o rest ih =>
    intro i j hj
    cases hc : chs[i]? with
    | none => simp only [runLoop, hc] at hj; simp [doneIdxs] at hj
    | some c =>
      cases o with
      | success info =>
        simp only [runLoop, hc, doneIdxs, List.filterMap_cons, List.mem_cons] at hj
        rcases hj with h | h
        · omega
        · exact le_trans (by omega) (ih (i + 1) j h)
      | error =>
        simp only [runLoop, hc, doneIdxs, List.filterMap_cons] at hj
        exact le_trans (by omega) (ih (i + 1) j hj)
      | pausedThenResume =>
        simp only [runLoop, hc, doneIdxs, List.filterMap_cons] at hj
        exact ih i j hj
      | pausedThenStop =>
        simp only [runLoop, hc, doneIdxs, List.filterMap_cons] at hj
        simp at hj
      | stopped =>
        simp only [runLoop, hc, doneIdxs, List.filterMap_cons] at hj
        simp at hj

theorem runLoop_done_chain (chs : List Chapter) (dur : String → ℚ) :
    ∀ (sched : List Outcome) (i : Nat),
      List.Chain' (· < ·) (doneIdxs (runLoop chs dur sched i).1) := by
  intro sched
  induction sched with
  | nil =>
    intro i
    rw [runLoop]
    split <;> simp [doneIdxs]
  | cons o rest ih =>
    intro i
    cases hc : chs[i]? with
    | none => simp only [runLoop, hc]; simp [doneIdxs]
    | some c =>
      cases o with
      | success info =>
        simp only [runLoop, hc, doneIdxs, List.filterMap_cons]
        refine List.chain'_cons'.mpr ⟨?_, ih (i + 1)⟩
        intro b hb
        have hmem : b ∈ doneIdxs (runLoop chs dur rest (i + 1)).1 :=
          List.mem_of_mem_head? hb
        have := runLoop_done_ge chs dur rest (i + 1) b hmem
        omega
      | error =>
        simp only [runLoop, hc, doneIdxs, List.filterMap_cons]
        exact ih (i + 1)
      | pausedThenResume =>
        simp only [runLoop, hc, doneIdxs, List.filterMap_cons]
        exact ih i
      | pausedThenStop =>
        simp only [runLoop, hc, doneIdxs, List.filterMap_cons]
        simp
      | stopped =>
        simp only [runLoop, hc, doneIdxs, List.filterMap_cons]
        simp

theorem runLoop_head_shape (chs : List Chapter) (dur : String → ℚ) :
    ∀ (sched : List Outcome) (i : Nat),
      (runLoop chs dur sched i).1 = [] ∨
      ∃ c t, chs[i]? = some c ∧
        (runLoop chs dur sched i).1 =
          Ev.status i c.id .processing ::
          Ev.attempt i c.id c.start_time (resolveEndTime chs i (dur c.sourceFile)) :: t := by
  intro sched i
  cases sched with
  | nil =>
    have h1 : (runLoop chs dur [] i).1 = [] := by rw [runLoop]; split <;> rfl
    exact Or.inl h1
  | cons o rest =>
    cases hc : chs[i]? with
    | none =>
      have h1 : (runLoop chs dur (o :: rest) i).1 = [] := by simp only [runLoop, hc]
      exact Or.inl h1
    | some c =>
      cases o with
      | success info =>
        refine Or.inr ⟨c,
          Ev.status i c.id (.done (verifyResult info).durationSeconds
            (verifyResult info).durationFrames) :: (runLoop chs dur rest (i + 1)).1,
          rfl, ?_⟩
        simp only [runLoop, hc]
      | error =>
        refine Or.inr ⟨c, Ev.status i c.id .error :: (runLoop chs dur rest (i + 1)).1,
          rfl, ?_⟩
        simp only [runLoop, hc]
      | pausedThenResume =>
        refine Or.inr ⟨c, Ev.status i c.id .paused :: (runLoop chs dur rest i).1,
          rfl, ?_⟩
        simp only [runLoop, hc]
      | pausedThenStop =>
        refine Or.inr ⟨c, [Ev.status i c.id .paused], rfl, ?_⟩
        simp only [runLoop, hc]
      | stopped =>
        refine Or.inr ⟨c, [Ev.status i c.id .stopped], rfl, ?_⟩
        simp only [runLoop, hc]

theorem runLoop_paused_retry (chs : List Chapter) (dur : String → ℚ) :
    ∀ (sched : List Outcome) (i : Nat) (l₁ l₂ : List Ev) (j : Nat) (cid : String) (st et : ℚ),
      (runLoop chs dur sched i).1 =
          l₁ ++ Ev.attempt j cid st et :: Ev.status j cid .paused :: l₂ →
      l₂ = [] ∨ ∃ l₃, l₂ = Ev.status j cid .processing :: Ev.attempt j cid st et :: l₃ := by
  intro sched
  induction sched with
  | nil =>
    intro i l₁ l₂ j cid st et heq
    have h1 : (runLoop chs dur [] i).1 = [] := by rw [runLoop]; split <;> rfl
    rw [h1] at heq
    exact absurd heq.symm (by simp)
  | cons o rest ih =>
    intro i l₁ l₂ j cid st et heq
    cases hc : chs[i]? with
    | none =>
      have h1 : (runLoop chs dur (o :: rest) i).1 = [] := by simp only [runLoop, hc]
      rw [h1] at heq
      exact absurd heq.symm (by simp)
    | some c =>
      cases o with
      | success info =>
        simp only [runLoop, hc] at heq
        rcases l₁ with _ | ⟨e₁, _ | ⟨e₂, _ | ⟨e₃, l₁⟩⟩⟩
        · simp at heq
        · simp at heq
        · simp at heq
        · simp only [List.cons_append, List.cons.injEq] at heq
          exact ih (i + 1) l₁ l₂ j cid st et heq.2.2.2
      | error =>
        simp only [runLoop, hc] at heq
        rcases l₁ with _ | ⟨e₁, _ | ⟨e₂, _ | ⟨e₃, l₁⟩⟩⟩
        · simp at heq
        · simp at heq
        · simp at heq
        · simp only [List.cons_append, List.cons.injEq] at heq
          exact ih (i + 1) l₁ l₂ j cid st et heq.2.2.2
      | pausedThenResume =>
        simp only [runLoop, hc] at heq
        rcases l₁ with _ | ⟨e₁, _ | ⟨e₂, _ | ⟨e₃, l₁⟩⟩⟩
        · simp at heq
        · simp only [List.cons_append, List.nil_append, List.cons.injEq] at heq
          obtain ⟨-, hatt, hpau, ht⟩ := heq
          have hj : i = j := (Ev.attempt.injEq _ _ _ _ _ _ _ _).mp hatt |>.1
          have hcid : c.id = cid := (Ev.attempt.injEq _ _ _ _ _ _ _ _).mp hatt |>.2.1
          have hst : c.start_time = st := (Ev.attempt.injEq _ _ _ _ _ _ _ _).mp hatt |>.2.2.1
          have het : resolveEndTime chs i (dur c.sourceFile) = et :=
            (Ev.attempt.injEq _ _ _ _ _ _ _ _).mp hatt |>.2.2.2
          rcases runLoop_head_shape chs dur rest i with hsh | ⟨c', t', hc', hsh⟩
          · rw [hsh] at ht
            exact Or.inl ht.symm
          · have hcc : c' = c := Option.some_injective _ (hc'.symm.trans hc)
            subst hcc
            rw [hsh] at ht
            refine Or.inr ⟨t', ?_⟩
            rw [← ht, hcid, hst, het, hj]
        · simp at heq
        · simp only [List.cons_append, List.cons.injEq] at heq
          exact ih i l₁ l₂ j cid st et heq.2.2.2
      | pausedThenStop =>
        simp only [runLoop, hc] at heq
        rcases l₁ with _ | ⟨e₁, _ | ⟨e₂, _ | ⟨e₃, l₁⟩⟩⟩
        · simp at heq
        · simp only [List.cons_append, List.nil_append, List.cons.injEq] at heq
          exact Or.inl heq.2.2.2.symm
        · simp at heq
        · simp at heq
      | stopped =>
        simp only [runLoop, hc] at heq
        rcases l₁ with _ | ⟨e₁, _ | ⟨e₂, _ | ⟨e₃, l₁⟩⟩⟩
        · simp at heq
        · simp at heq
        · simp at heq
        · simp at heq

/-- C3.  Across a pause and resume cycle: a `Paused` status immediately
following the attempt of the chapter at index `j` is followed, when the run
continues at all, by a re-attempt of exactly the same chapter id with
identical computed start and end times; any two attempts at the same index
carry the same id and times; the first attempt is at index 0 and consecutive
attempts either repeat an index or advance by one, so no chapter in the
submission list is skipped; and the indices receiving a `Done` status are
strictly increasing, so no chapter is processed to completion more than
once. -/
theorem pause_resume_no_skip_no_dup (chs : List Chapter) (dur : String → ℚ)
    (sched : List Outcome) :
    (∀ (l₁ l₂ : List Ev) (j : Nat) (cid : String) (st et : ℚ),
      (runLoop chs dur sched 0).1 =
          l₁ ++ Ev.attempt j cid st et :: Ev.status j cid .paused :: l₂ →
      l₂ = [] ∨ ∃ l₃, l₂ = Ev.status j cid .processing :: Ev.attempt j cid st et :: l₃) ∧
    (∀ a b, a ∈ attemptsOf (runLoop chs dur sched 0).1 →
      b ∈ attemptsOf (runLoop chs dur sched 0).1 → a.1 = b.1 → a = b) ∧
    (∀ a, (attemptsOf (runLoop chs dur sched 0).1).head? = some a → a.1 = 0) ∧
    List.Chain' (fun a b => b.1 = a.1 ∨ b.1 = a.1 + 1)
      (attemptsOf (runLoop chs dur sched 0).1) ∧
    List.Chain' (· < ·) (doneIdxs (runLoop chs dur sched 0).1) ∧
    (doneIdxs (runLoop chs dur sched 0).1).Nodup := by
  refine ⟨fun l₁ l₂ j cid st et h => runLoop_paused_retry chs dur sched 0 l₁ l₂ j cid st et h,
    ?_, fun a ha => runLoop_attempts_head chs dur sched 0 a ha,
    runLoop_attempts_chain chs dur sched 0, runLoop_done_chain chs dur sched 0, ?_⟩
  · intro a b ha hb hab
    obtain ⟨c, hc, h1, h2, h3⟩ := runLoop_attempt_shape chs dur sched 0 a ha
    obtain ⟨c', hc', h1', h2', h3'⟩ := runLoop_attempt_shape chs dur sched 0 b hb
    rw [← hab] at hc'
    have hcc : c' = c := Option.some_injective _ (hc'.symm.trans hc)
    subst hcc
    rcases a with ⟨a1, a2, a3, a4⟩
    rcases b with ⟨b1, b2, b3, b4⟩
    simp only at h1 h2 h3 h1' h2' h3' hab
    subst hab
    rw [h1, h2, h3, h1', h2', h3']
  · have hpw : (doneIdxs (runLoop chs dur sched 0).1).Pairwise (· < ·) :=
      List.chain'_iff_pairwise.mp (runLoop_done_chain chs dur sched 0)
    exact hpw.imp fun h => Nat.ne_of_lt h

/-- Concrete chapters used by the control-loop witnesses: one source file
with markers at 0 and 5 seconds. -/
def wChapters : List Chapter :=
  [⟨"c1", "t1", 0, "f.mov", none⟩, ⟨"c2", "t2", 5, "f.mov", none⟩]

/-- Concrete duration lookup used by the control-loop witnesses. -/
def wDur : String → ℚ := fun _ => 10

/-- A re-probe with no streams, so verification degrades to zero. -/
def wInfo : VideoInfo := ⟨⟨none⟩, []⟩

/-- Witness for C3: in the run pause-resume, success, success over two
chapters, the events after the `Paused` status of chapter 0 re-attempt
chapter 0 with the same times 0 and 5. -/
theorem pause_resume_no_skip_no_dup_witness :
    ([Ev.status 0 "c1" Status.processing, Ev.attempt 0 "c1" 0 5,
      Ev.status 0 "c1" (Status.done 0 0), Ev.status 1 "c2" Status.processing,
      Ev.attempt 1 "c2" 5 10, Ev.status 1 "c2" (Status.done 0 0)] = ([] : List Ev)) ∨
    ∃ l₃, [Ev.status 0 "c1" Status.processing, Ev.attempt 0 "c1" 0 5,
      Ev.status 0 "c1" (Status.done 0 0), Ev.status 1 "c2" Status.processing,
      Ev.attempt 1 "c2" 5 10, Ev.status 1 "c2" (Status.done 0 0)] =
        Ev.status 0 "c1" Status.processing :: Ev.attempt 0 "c1" 0 5 :: l₃ :=
  (pause_resume_no_skip_no_dup wChapters wDur
      [.pausedThenResume, .success wInfo, .success wInfo]).1
    [Ev.status 0 "c1" Status.processing] _ 0 "c1" 0 5 (by decide)

theorem stop_semantics_aux (chs : List Chapter) (dur : String → ℚ) :
    ∀ (sched : List Outcome) (i k : Nat) (cid : String),
      Ev.status k cid .stopped ∈ (runLoop chs dur sched i).1 →
        (runLoop chs dur sched i).2 = .stoppedEnd ∧
        (runLoop chs dur sched i).1.countP isStoppedStatus = 1 ∧
        (∀ e ∈ (runLoop chs dur sched i).1, e.evIdx ≤ k) ∧
        ∃ l₁, (runLoop chs dur sched i).1 = l₁ ++ [Ev.status k cid .stopped] := by
  intro sched
  induction sched with
  | nil =>
    intro i k cid hmem
    have h1 : (runLoop chs dur [] i).1 = [] := by rw [runLoop]; split <;> rfl
    rw [h1] at hmem
    simp at hmem
  | cons o rest ih =>
    intro i k cid hmem
    cases hc : chs[i]? with
    | none =>
      have h1 : (runLoop chs dur (o :: rest) i).1 = [] := by simp only [runLoop, hc]
      rw [h1] at hmem
      simp at hmem
    | some c =>
      have hik : i ≤ k → i ≤ k := fun h => h
      cases o with
      | success info =>
        simp only [runLoop, hc, List.mem_cons] at hmem
        rcases hmem with h | h | h | h
        · simp at h
        · simp at h
        · simp at h
        · obtain ⟨hend, hcnt, hbound, l₁', hsp⟩ := ih (i + 1) k cid h
          have hk : i + 1 ≤ k := runLoop_idx_ge chs dur rest (i + 1) _ h
          refine ⟨by simp only [runLoop, hc]; exact hend, ?_, ?_, ?_⟩
          · simp only [runLoop, hc, List.countP_cons]
            rw [hcnt]
            rfl
          · intro e he
            simp only [runLoop, hc, List.mem_cons] at he
            rcases he with h' | h' | h' | h'
            · subst h'; simp only [Ev.evIdx]; omega
            · subst h'; simp only [Ev.evIdx]; omega
            · subst h'; simp only [Ev.evIdx]; omega
            · exact hbound e h'
          · refine ⟨Ev.status i c.id .processing ::
              Ev.attempt i c.id c.start_time (resolveEndTime chs i (dur c.sourceFile)) ::
              Ev.status i c.id (.done (verifyResult info).durationSeconds
                (verifyResult info).durationFrames) :: l₁', ?_⟩
            simp only [runLoop, hc, List.cons_append]
            rw [hsp]
      | error =>
        simp only [runLoop, hc, List.mem_cons] at hmem
        rcases hmem with h | h | h | h
        · simp at h
        · simp at h
        · simp at h
        · obtain ⟨hend, hcnt, hbound, l₁', hsp⟩ := ih (i + 1) k cid h
          have hk : i + 1 ≤ k := runLoop_idx_ge chs dur rest (i + 1) _ h
          refine ⟨by simp only [runLoop, hc]; exact hend, ?_, ?_, ?_⟩
          · simp only [runLoop, hc, List.countP_cons]
            rw [hcnt]
            rfl
          · intro e he
            simp only [runLoop, hc, List.mem_cons] at he
            rcases he with h' | h' | h' | h'
            · subst h'; simp only [Ev.evIdx]; omega
            · subst h'; simp only [Ev.evIdx]; omega
            · subst h'; simp only [Ev.evIdx]; omega
            · exact hbound e h'
          · refine ⟨Ev.status i c.id .processing ::
              Ev.attempt i c.id c.start_time (resolveEndTime chs i (dur c.sourceFile)) ::
              Ev.status i c.id .error :: l₁', ?_⟩
            simp only [runLoop, hc, List.cons_append]
            rw [hsp]
      | pausedThenResume =>
        simp only [runLoop, hc, List.mem_cons] at hmem
        rcases hmem with h | h | h | h
        · simp at h
        · simp at h
        · simp at h
        · obtain ⟨hend, hcnt, hbound, l₁', hsp⟩ := ih i k cid h
          have hk : i ≤ k := runLoop_idx_ge chs dur rest i _ h
          refine ⟨by simp only [runLoop, hc]; exact hend, ?_, ?_, ?_⟩
          · simp only [runLoop, hc, List.countP_cons]
            rw [hcnt]
            rfl
          · intro e he
            simp only [runLoop, hc, List.mem_cons] at he
            rcases he with h' | h' | h' | h'
            · subst h'; simp only [Ev.evIdx]; omega
            · subst h'; simp only [Ev.evIdx]; omega
            · subst h'; simp only [Ev.evIdx]; omega
            · exact hbound e h'
          · refine ⟨Ev.status i c.id .processing ::
              Ev.attempt i c.id c.start_time (resolveEndTime chs i (dur c.sourceFile)) ::
              Ev.status i c.id .paused :: l₁', ?_⟩
            simp only [runLoop, hc, List.cons_append]
            rw [hsp]
      | pausedThenStop =>
        simp only [runLoop, hc, List.mem_cons] at hmem
        rcases hmem with h | h | h | h
        · simp at h
        · simp at h
        · simp at h
        · simp at h
      | stopped =>
        simp only [runLoop, hc, List.mem_cons] at hmem
        rcases hmem with h | h | h | h
        · simp at h
        · simp at h
        · have hki : k = i ∧ cid = c.id := by
            have := (Ev.status.injEq _ _ _ _ _ _).mp h
            exact ⟨this.1, this.2.1⟩
          obtain ⟨hki1, hki2⟩ := hki
          subst hki1
          subst hki2
          refine ⟨by simp only [runLoop, hc], ?_, ?_, ?_⟩
          · simp only [runLoop, hc]
            rfl
          · intro e he
            simp only [runLoop, hc, List.mem_cons] at he
            rcases he with h' | h' | h' | h'
            · subst h'; simp [Ev.evIdx]
            · subst h'; simp [Ev.evIdx]
            · subst h'; simp [Ev.evIdx]
            · simp at h'
          · refine ⟨[Ev.status k c.id .processing,
              Ev.attempt k c.id c.start_time (resolveEndTime chs k (dur c.sourceFile))], ?_⟩
            simp only [runLoop, hc]
            rfl
        · simp at h

/-- C4.  If a `Stopped` status for the chapter at index `k` appears in the
trace of a run (stop was requested while that chapter was in flight), then
exactly one `Stopped` status event is emitted in the whole run, every
event of the run belongs to a chapter index at most `k` (so chapters
`k+1..n` receive zero status events), the `Stopped` event is the final
event, and the run ends with the distinct `processing-stopped` signal
rather than `processing-complete`. -/
theorem stop_mid_chapter_semantics (chs : List Chapter) (dur : String → ℚ)
    (sched : List Outcome) (k : Nat) (cid : String)
    (hmem : Ev.status k cid .stopped ∈ (runLoop chs dur sched 0).1) :
    (runLoop chs dur sched 0).2 = .stoppedEnd ∧
    (runLoop chs dur sched 0).1.countP isStoppedStatus = 1 ∧
    (∀ e ∈ (runLoop chs dur sched 0).1, e.evIdx ≤ k) ∧
    ∃ l₁, (runLoop chs dur sched 0).1 = l₁ ++ [Ev.status k cid .stopped] :=
  stop_semantics_aux chs dur sched 0 k cid hmem

/-- Witness for C4: a run of two chapters stopped during the first
chapter emits its single `Stopped` event for chapter 0 and ends with the
stopped signal. -/
theorem stop_mid_chapter_semantics_witness :
    (runLoop wChapters wDur [Outcome.stopped] 0).2 = RunEnd.stoppedEnd ∧
    (runLoop wChapters wDur [Outcome.stopped] 0).1.countP isStoppedStatus = 1 ∧
    (∀ e ∈ (runLoop wChapters wDur [Outcome.stopped] 0).1, e.evIdx ≤ 0) ∧
    ∃ l₁, (runLoop wChapters wDur [Outcome.stopped] 0).1 =
      l₁ ++ [Ev.status 0 "c1" Status.stopped] :=
  stop_mid_chapter_semantics wChapters wDur [Outcome.stopped] 0 "c1" (by decide)

end GuideCreator
